import Mathlib

/-!
# Verification of `SimpleSocketConnection` (quickstep, cli/simple_socket)

Shallow embedding of `src/cli/simple_socket/SimpleSocketConnection.hpp`:
the wire protocol (length-prefixed framed messages of key/value fields),
the decode path (`receiveRequest`, `receiveData`, `receiveUInt64`), the
encode path (`sendResponse`, `writeUInt64`) and the 64-bit byte-order
helpers (`Ntohll`, `Htonll`).

Machine integers are modelled as `Nat` with explicit `% 2^64` / `% 2^32`
where the C++ casts and arithmetic wrap.  Bytes on the wire are `Nat`
values (a socket delivers values `< 256`; loads reduce `% 256`).  The
host's memory representation of a `uint64_t` depends on endianness, which
is modelled explicitly by the `Endian` parameter: `ntohl`/`htonl` are the
identity on a big-endian host and a 32-bit byte swap on a little-endian
host, and storing a `uint64_t` to memory lays its bytes out in host order.
-/

namespace SimpleSocket

/-- Host endianness: determines the behaviour of `ntohl`/`htonl` and the
in-memory byte layout of `uint64_t` values. -/
inductive Endian where
  | little
  | big
deriving DecidableEq, Repr

/-- Byte swap of a 32-bit value (the effect of `ntohl`/`htonl` on a
little-endian host). -/
def bswap32 (x : Nat) : Nat :=
  (x % 256) * 2 ^ 24 + (x / 2 ^ 8 % 256) * 2 ^ 16 + (x / 2 ^ 16 % 256) * 2 ^ 8 +
    (x / 2 ^ 24 % 256)

/-- `ntohl`: identity on a big-endian host, byte swap on a little-endian
host (POSIX semantics, applied to a 32-bit value). -/
def ntohl (e : Endian) (x : Nat) : Nat :=
  match e with
  | .little => bswap32 x
  | .big => x

/-- `htonl` is the same function as `ntohl` on every host. -/
def htonl (e : Endian) (x : Nat) : Nat := ntohl e x

/-- `SimpleSocketConnection::Ntohll`: splits the 64-bit value into its low
and high 32-bit halves (`static_cast<uint32_t>(code)`,
`static_cast<uint32_t>(code >> 32)`), applies `ntohl` to each, and
reassembles with the halves SWAPPED
(`(ntohl(lo32) << 32) | ntohl(hi32)`). -/
def Ntohll (e : Endian) (code : Nat) : Nat :=
  let lo32 := code % 2 ^ 32
  let hi32 := code / 2 ^ 32 % 2 ^ 32
  ntohl e lo32 * 2 ^ 32 + ntohl e hi32

/-- `SimpleSocketConnection::Htonll`: same structure as `Ntohll` with
`htonl` in place of `ntohl` (hence the same function on every host). -/
def Htonll (e : Endian) (code : Nat) : Nat :=
  let lo32 := code % 2 ^ 32
  let hi32 := code / 2 ^ 32 % 2 ^ 32
  htonl e lo32 * 2 ^ 32 + htonl e hi32

/-- The `k` least-significant bytes of `v`, least-significant first
(little-endian memory layout). -/
def storeLEAux : Nat → Nat → List Nat
  | 0, _ => []
  | k + 1, v => v % 256 :: storeLEAux k (v / 256)

/-- In-memory bytes of a `uint64_t` holding `v`, in address order, on a
host of endianness `e`. -/
def storeHost (e : Endian) (v : Nat) : List Nat :=
  match e with
  | .little => storeLEAux 8 v
  | .big => (storeLEAux 8 v).reverse

/-- Value of a byte sequence read little-endian (first byte least
significant).  Each byte is reduced `% 256`, as a memory byte holds
8 bits. -/
def loadLE : List Nat → Nat
  | [] => 0
  | b :: rest => b % 256 + 256 * loadLE rest

/-- The `uint64_t` obtained by reading a byte sequence from memory in
address order on a host of endianness `e`. -/
def loadHost (e : Endian) (l : List Nat) : Nat :=
  match e with
  | .little => loadLE l
  | .big => loadLE l.reverse

theorem bswap32_lt (x : Nat) : bswap32 x < 2 ^ 32 := by
  unfold bswap32
  omega

theorem bswap32_bytes (b0 b1 b2 b3 : Nat) (h0 : b0 < 256) (h1 : b1 < 256)
    (h2 : b2 < 256) (h3 : b3 < 256) :
    bswap32 (b0 + b1 * 2 ^ 8 + b2 * 2 ^ 16 + b3 * 2 ^ 24)
      = b3 + b2 * 2 ^ 8 + b1 * 2 ^ 16 + b0 * 2 ^ 24 := by
  unfold bswap32
  have e8 : (2 : Nat) ^ 8 = 256 := by norm_num
  have e16 : (2 : Nat) ^ 16 = 65536 := by norm_num
  have e24 : (2 : Nat) ^ 24 = 16777216 := by norm_num
  rw [e8, e16, e24]
  omega

theorem bswap32_bswap32 (x : Nat) (h : x < 2 ^ 32) : bswap32 (bswap32 x) = x := by
  have e8 : (2 : Nat) ^ 8 = 256 := by norm_num
  have e16 : (2 : Nat) ^ 16 = 65536 := by norm_num
  have e24 : (2 : Nat) ^ 24 = 16777216 := by norm_num
  have h32 : (2 : Nat) ^ 32 = 4294967296 := by norm_num
  have hd : bswap32 x
      = (x / 2 ^ 24 % 256) + (x / 2 ^ 16 % 256) * 2 ^ 8 + (x / 2 ^ 8 % 256) * 2 ^ 16 +
        (x % 256) * 2 ^ 24 := by
    unfold bswap32
    ring
  rw [hd, bswap32_bytes _ _ _ _ (Nat.mod_lt _ (by norm_num)) (Nat.mod_lt _ (by norm_num))
    (Nat.mod_lt _ (by norm_num)) (Nat.mod_lt _ (by norm_num))]
  rw [e8, e16, e24] at *
  rw [h32] at h
  have d1 : x / 256 / 256 = x / 65536 := by
    rw [Nat.div_div_eq_div_mul]
  have d2 : x / 65536 / 256 = x / 16777216 := by
    rw [Nat.div_div_eq_div_mul]
  omega

theorem ntohl_lt (e : Endian) (x : Nat) (h : x < 2 ^ 32) : ntohl e x < 2 ^ 32 := by
  cases e with
  | little => exact bswap32_lt x
  | big => exact h

theorem ntohl_ntohl (e : Endian) (x : Nat) (h : x < 2 ^ 32) : ntohl e (ntohl e x) = x := by
  cases e with
  | little => exact bswap32_bswap32 x h
  | big => rfl

theorem Ntohll_lt (e : Endian) (x : Nat) : Ntohll e x < 2 ^ 64 := by
  unfold Ntohll
  have h1 := ntohl_lt e (x % 2 ^ 32) (Nat.mod_lt _ (by norm_num))
  have h2 := ntohl_lt e (x / 2 ^ 32 % 2 ^ 32) (Nat.mod_lt _ (by norm_num))
  simp only []
  omega

theorem Htonll_eq_Ntohll (e : Endian) (x : Nat) : Htonll e x = Ntohll e x := rfl

theorem Ntohll_Ntohll (e : Endian) (x : Nat) (h : x < 2 ^ 64) :
    Ntohll e (Ntohll e x) = x := by
  unfold Ntohll
  have hlo : x % 2 ^ 32 < 2 ^ 32 := Nat.mod_lt _ (by norm_num)
  have hhi : x / 2 ^ 32 % 2 ^ 32 < 2 ^ 32 := Nat.mod_lt _ (by norm_num)
  have hl := ntohl_lt e (x % 2 ^ 32) hlo
  have hh := ntohl_lt e (x / 2 ^ 32 % 2 ^ 32) hhi
  simp only []
  have e1 : (ntohl e (x % 2 ^ 32) * 2 ^ 32 + ntohl e (x / 2 ^ 32 % 2 ^ 32)) % 2 ^ 32
      = ntohl e (x / 2 ^ 32 % 2 ^ 32) := by
    omega
  have e2 : (ntohl e (x % 2 ^ 32) * 2 ^ 32 + ntohl e (x / 2 ^ 32 % 2 ^ 32)) / 2 ^ 32 % 2 ^ 32
      = ntohl e (x % 2 ^ 32) := by
    omega
  rw [e1, e2, ntohl_ntohl e _ hhi, ntohl_ntohl e _ hlo]
  omega

theorem Ntohll_Htonll (e : Endian) (x : Nat) (h : x < 2 ^ 64) :
    Ntohll e (Htonll e x) = x := by
  rw [Htonll_eq_Ntohll]
  exact Ntohll_Ntohll e x h

theorem storeLEAux_length (k v : Nat) : (storeLEAux k v).length = k := by
  induction k generalizing v with
  | zero => rfl
  | succ n ih => simp [storeLEAux, ih]

theorem storeHost_length (e : Endian) (v : Nat) : (storeHost e v).length = 8 := by
  cases e <;> simp [storeHost, storeLEAux_length]

theorem loadLE_storeLEAux (k v : Nat) : loadLE (storeLEAux k v) = v % 256 ^ k := by
  induction k generalizing v with
  | zero => simp [storeLEAux, loadLE, Nat.mod_one]
  | succ n ih =>
    simp only [storeLEAux, loadLE, ih]
    have h1 : v / 256 % 256 ^ n = v % (256 * 256 ^ n) / 256 :=
      (Nat.mod_mul_right_div_self v 256 (256 ^ n)).symm
    have h2 : v % (256 * 256 ^ n) % 256 = v % 256 :=
      Nat.mod_mod_of_dvd v ⟨256 ^ n, rfl⟩
    have h3 : (256 : Nat) ^ (n + 1) = 256 * 256 ^ n := by ring
    rw [h3]
    omega

theorem loadHost_storeHost (e : Endian) (v : Nat) (h : v < 2 ^ 64) :
    loadHost e (storeHost e v) = v := by
  have hpow : (256 : Nat) ^ 8 = 2 ^ 64 := by norm_num
  have hk : v % 256 ^ 8 = v := by rw [hpow]; exact Nat.mod_eq_of_lt h
  cases e with
  | little => simp only [loadHost, storeHost, loadLE_storeLEAux, hk]
  | big =>
    simp only [loadHost, storeHost, List.reverse_reverse, loadLE_storeLEAux, hk]

/-! ## Wire primitives -/

/-- `SimpleSocketConnection::writeUInt64`: `code = Htonll(value)`, then the
host's in-memory bytes of `code` are written to the socket.  The
`% 2 ^ 64` mirrors the `uint64_t` parameter type. -/
def writeUInt64 (e : Endian) (value : Nat) : List Nat :=
  storeHost e (Htonll e (value % 2 ^ 64))

/-- Reading a `uint64_t` at byte offset `off` of the receive buffer and
converting it with `Ntohll` (the `Ntohll(*size_ptr++)` pattern of
`receiveRequest`).  `none` models an access to one of the 8 bytes lying
outside the allocated buffer (an out-of-bounds read in the C++, which has
no bounds check here). -/
def readUInt64At (e : Endian) (buf : List Nat) (off : Nat) : Option Nat :=
  if off + 8 ≤ buf.length then
    some (Ntohll e (loadHost e ((buf.drop off).take 8)))
  else
    none

/-! ## The Record (`SimpleSocketContent`) -/

/-- Modelled from the spec: `SimpleSocketContent` is declared in
`cli/simple_socket/SimpleSocketContent.hpp`, which is not part of the
provided sources.  Per spec §3/§4.1 it is an insertion-ordered mapping
from keys to byte-string values with unique keys, last write wins, and
`fields()` iterating the pairs in that deterministic insertion order.  It
is modelled as the list of (key, value) pairs that `fields()` yields; keys
and values are byte strings (`List Nat`). -/
def setField (r : List (List Nat × List Nat)) (key value : List Nat) :
    List (List Nat × List Nat) :=
  if r.any (fun f => f.1 = key) then
    r.map (fun f => if f.1 = key then (key, value) else f)
  else
    r ++ [(key, value)]

/-- The Record produced by the decode loop of `receiveRequest`, which calls
`request_.setField(key, key_size, value, value_size)` once per parsed
field, in wire order, starting from the empty Record. -/
def populateRecord (fields : List (List Nat × List Nat)) :
    List (List Nat × List Nat) :=
  fields.foldl (fun r f => setField r f.1 f.2) []

/-! ## Encode (`sendResponse`) -/

/-- `SimpleSocketConnection::sendResponse(const SimpleSocketContent &)`:
accumulates `total_size` over the fields, adds
`sizeof(uint64_t) * (1 + 2 * num_fields)`, then writes `total_size`,
`num_fields`, each `(key_length, value_length)` pair, and each field's key
bytes followed by its value bytes, in `fields()` order.  The returned list
is the concatenation of all bytes written to the socket.  (The C++
accumulates `total_size` in `uint64_t`, i.e. mod `2 ^ 64` at each step;
`writeUInt64` applies the `% 2 ^ 64` at the end, which is equivalent.) -/
def sendResponse (e : Endian) (response : List (List Nat × List Nat)) :
    List Nat :=
  let total0 := response.foldl (fun acc f => acc + f.1.length + f.2.length) 0
  let num_fields := response.length
  let total_size := total0 + 8 * (1 + 2 * num_fields)
  writeUInt64 e total_size ++ writeUInt64 e num_fields ++
    (response.map (fun f => writeUInt64 e f.1.length ++ writeUInt64 e f.2.length)).flatten ++
    (response.map (fun f => f.1 ++ f.2)).flatten

/-- Bytes of a text string (all characters of the strings used on this
path are ASCII, one byte per character). -/
def strBytes (s : String) : List Nat := s.data.map Char.toNat

/-- `SimpleSocketConnection::sendResponse(const std::string &stdout_str,
const std::string &stderr_str)`: builds a two-field Record with
`setField("stdout", stdout_str)` and `setField("stderr", stderr_str)` and
encodes it with the Record form of `sendResponse`. -/
def sendResponseTwo (e : Endian) (stdout_bytes stderr_bytes : List Nat) :
    List Nat :=
  sendResponse e
    (setField (setField [] (strBytes "stdout") stdout_bytes)
      (strBytes "stderr") stderr_bytes)

/-! ## Decode (`receiveRequest`, `receiveData`) -/

/-- The two `std::runtime_error`s thrown on the decode path. -/
inductive DecodeErr where
  | oversized (len : Nat)
  | truncated
deriving DecidableEq, Repr

/-- The `what()` strings of the two decode-path exceptions, exactly as
built in the C++ source. -/
def errorString : DecodeErr → String
  | .oversized len => "Overflow request data length = " ++ toString len
  | .truncated =>
      "Error receiving data from socket connection" ++
        " at SimpleSocketConnection::receiveData()"

/-- Result of running the body of `receiveRequest`:
`ok` — the parsed fields, in wire order, the `CHECK_EQ` having passed;
`err` — a thrown `std::runtime_error` (caught by the constructor);
`fatal` — the final `CHECK_EQ` failed (glog terminates the process);
`oob` — a buffer access out of bounds (undefined behaviour in the C++). -/
inductive Outcome where
  | ok (fields : List (List Nat × List Nat))
  | err (de : DecodeErr)
  | fatal
  | oob
deriving DecidableEq, Repr

/-- `SimpleSocketConnection::kMaxRequestDataLength = 0x10000000`. -/
def kMaxRequestDataLength : Nat := 0x10000000

/-- The size-table loop of `receiveRequest`: reads `num_fields` pairs of
`uint64_t`s (`key_size`, `value_size`) with `Ntohll(*size_ptr++)`,
starting at byte offset `off`. -/
def readSizeTable (e : Endian) (buf : List Nat) :
    Nat → Nat → Option (List (Nat × Nat))
  | 0, _ => some []
  | n + 1, off =>
    match readUInt64At e buf off, readUInt64At e buf (off + 8) with
    | some k, some v =>
      match readSizeTable e buf n (off + 16) with
      | some rest => some ((k, v) :: rest)
      | none => none
    | _, _ => none

/-- The byte range `[off, off + len)` of the receive buffer. -/
def slice (buf : List Nat) (off len : Nat) : List Nat := (buf.drop off).take len

/-- The field-population loop of `receiveRequest`: for each size-table
entry, `key` is the next `key_size` bytes and `value` the following
`value_size` bytes at the data cursor, which then advances by
`key_size + value_size`.  A read of `n > 0` bytes ending past the end of
the allocated buffer is an out-of-bounds access (`none`); a zero-length
read touches no memory.  Returns the fields and the final cursor
offset. -/
def sliceFields (buf : List Nat) :
    List (Nat × Nat) → Nat → Option (List (List Nat × List Nat) × Nat)
  | [], off => some ([], off)
  | (k, v) :: rest, off =>
    if (k = 0 ∨ off + k ≤ buf.length) ∧ (v = 0 ∨ off + k + v ≤ buf.length) then
      match sliceFields buf rest (off + k + v) with
      | some (fs, fin) => some ((slice buf off k, slice buf (off + k) v) :: fs, fin)
      | none => none
    else
      none

/-- The in-buffer decoding steps of `receiveRequest`, applied to the
`request_data_` buffer of `request_data_length_` bytes: read `num_fields`,
read the size table, slice out the fields, then `CHECK_EQ` that the data
cursor landed exactly at `request_data_ + request_data_length_`. -/
def parseBuffer (e : Endian) (buf : List Nat) : Outcome :=
  match readUInt64At e buf 0 with
  | none => .oob
  | some num_fields =>
    match readSizeTable e buf num_fields 8 with
    | none => .oob
    | some field_sizes =>
      match sliceFields buf field_sizes (8 + 16 * num_fields) with
      | none => .oob
      | some (fields, fin) => if fin = buf.length then .ok fields else .fatal

/-- Result of `receiveRequest`: the outcome, and whether
`request_data_ = std::malloc(request_data_length_)` was reached (i.e. the
buffer was allocated; the destructor's cleanup is conditioned on it). -/
structure RecvResult where
  outcome : Outcome
  allocated : Bool
deriving DecidableEq, Repr

/-- `SimpleSocketConnection::receiveRequest`, with the socket modelled as
the byte stream the peer delivers before closing: `receiveUInt64` needs 8
bytes for `request_data_length_`; the length is checked against
`kMaxRequestDataLength`; `malloc` then `receiveData` needs
`request_data_length_` further bytes; the buffer is then parsed. -/
def receiveRequest (e : Endian) (stream : List Nat) : RecvResult :=
  if 8 ≤ stream.length then
    let len := Ntohll e (loadHost e (stream.take 8))
    if len ≥ kMaxRequestDataLength then
      ⟨.err (.oversized len), false⟩
    else if len ≤ stream.length - 8 then
      ⟨parseBuffer e ((stream.drop 8).take len), true⟩
    else
      ⟨.err .truncated, true⟩
  else
    ⟨.err .truncated, false⟩

/-- `SimpleSocketConnection::receiveData`, modelled at the level of the
`read()` retry loop: `reads` is the sequence of byte counts the successive
`read` calls return (the kernel returns at most the count requested; when
the list is exhausted further reads return 0, as on a closed connection).
Returns the unconsumed tail of `reads` on success. -/
def receiveData : List Int → Nat → Except DecodeErr (List Int)
  | reads, 0 => .ok reads
  | [], _ + 1 => .error .truncated
  | r :: rest, b + 1 =>
    if r ≤ 0 then .error .truncated
    else receiveData rest (b + 1 - r.toNat)

/-- The number of bytes `receiveData` stores into `dst` before returning
or throwing: each successful `read` delivers at most the count it was
asked for (`min r.toNat remaining`). -/
def receivedBytes : List Int → Nat → Nat
  | _, 0 => 0
  | [], _ + 1 => 0
  | r :: rest, b + 1 =>
    if r ≤ 0 then 0
    else min r.toNat (b + 1) + receivedBytes rest (b + 1 - r.toNat)

/-! ## The Connection object -/

/-- Observable state of a live `SimpleSocketConnection` after
construction: the decoded Record (`request_`), the stored error
(`error_message_`), and whether `request_data_` is non-null (`malloc` is
assumed to return a non-null pointer, as glibc's does even for a zero
size). -/
structure SimpleSocketConnection where
  request : List (List Nat × List Nat)
  error_message : Option String
  request_data : Bool
deriving DecidableEq, Repr

/-- The constructor: runs `receiveRequest`, catching any `std::exception`
and storing its `what()` in `error_message_`.  `none` models the two ways
no live object results: a failed glog `CHECK` (process termination) and an
out-of-bounds buffer access (undefined behaviour). -/
def mkConnection (e : Endian) (stream : List Nat) :
    Option SimpleSocketConnection :=
  let r := receiveRequest e stream
  match r.outcome with
  | .ok fields => some ⟨populateRecord fields, none, r.allocated⟩
  | .err de => some ⟨[], some (errorString de), r.allocated⟩
  | .fatal => none
  | .oob => none

/-- `SimpleSocketConnection::hasError`. -/
def hasError (c : SimpleSocketConnection) : Bool := c.error_message.isSome

/-- Whether the destructor shuts down and closes the socket: it does so
exactly under its `request_data_ != nullptr` guard (the same guard under
which it frees the buffer). -/
def destructorClosesSocket (c : SimpleSocketConnection) : Bool :=
  c.request_data

/-! ## Derived quantities of the frame -/

/-- Sum of all key and value byte lengths of a field list. -/
def sumLen (fields : List (List Nat × List Nat)) : Nat :=
  (fields.map (fun f => f.1.length + f.2.length)).sum

/-- The `total_length` of the frame for a field list:
`8 + 16 * num_fields + Σ (key_len + val_len)`. -/
def totalLength (fields : List (List Nat × List Nat)) : Nat :=
  8 + 16 * fields.length + sumLen fields

/-- The size table of a field list. -/
def sizesOf (fields : List (List Nat × List Nat)) : List (Nat × Nat) :=
  fields.map (fun f => (f.1.length, f.2.length))

/-- Sum of a size table's entries. -/
def sizesSum (sizes : List (Nat × Nat)) : Nat :=
  (sizes.map (fun s => s.1 + s.2)).sum

/-- The size-table bytes written by `sendResponse`. -/
def tableBytes (e : Endian) (fields : List (List Nat × List Nat)) : List Nat :=
  (fields.map (fun f => writeUInt64 e f.1.length ++ writeUInt64 e f.2.length)).flatten

/-- The payload bytes written by `sendResponse`. -/
def payloadBytes (fields : List (List Nat × List Nat)) : List Nat :=
  (fields.map (fun f => f.1 ++ f.2)).flatten

/-! ## Wire-level lemmas -/

theorem Htonll_lt (e : Endian) (x : Nat) : Htonll e x < 2 ^ 64 := by
  rw [Htonll_eq_Ntohll]
  exact Ntohll_lt e x

theorem writeUInt64_length (e : Endian) (v : Nat) : (writeUInt64 e v).length = 8 := by
  unfold writeUInt64
  exact storeHost_length e _

theorem readUInt64At_writeUInt64 (e : Endian) (buf pre rest : List Nat) (v off : Nat)
    (hb : buf = pre ++ (writeUInt64 e v ++ rest)) (hoff : off = pre.length)
    (hv : v < 2 ^ 64) : readUInt64At e buf off = some v := by
  have hw : (writeUInt64 e v).length = 8 := writeUInt64_length e v
  have hlen : buf.length = off + (8 + rest.length) := by
    subst hb hoff
    simp [List.length_append, hw]
  have hdrop : buf.drop off = writeUInt64 e v ++ rest := by
    subst hb hoff
    exact List.drop_left pre _
  have htake : (buf.drop off).take 8 = writeUInt64 e v := by
    rw [hdrop]
    exact List.take_left' hw
  unfold readUInt64At
  rw [if_pos (by omega), htake]
  unfold writeUInt64
  rw [Nat.mod_eq_of_lt hv, loadHost_storeHost e _ (Htonll_lt e v), Ntohll_Htonll e v hv]

theorem readSizeTable_encode (e : Endian) (sizes : List (Nat × Nat)) :
    ∀ (pre rest : List Nat) (off : Nat), off = pre.length →
    (∀ s ∈ sizes, s.1 < 2 ^ 64 ∧ s.2 < 2 ^ 64) →
    readSizeTable e
      (pre ++ ((sizes.map (fun s => writeUInt64 e s.1 ++ writeUInt64 e s.2)).flatten ++ rest))
      sizes.length off = some sizes := by
  induction sizes with
  | nil => intro pre rest off hoff hbound; rfl
  | cons s tl ih =>
    intro pre rest off hoff hbound
    obtain ⟨k, v⟩ := s
    have hbk : k < 2 ^ 64 := (hbound (k, v) (by simp)).1
    have hbv : v < 2 ^ 64 := (hbound (k, v) (by simp)).2
    have hw : ∀ w, (writeUInt64 e w).length = 8 := writeUInt64_length e
    simp only [List.map_cons, List.flatten_cons, List.append_assoc, List.length_cons]
    have hread1 : readUInt64At e
        (pre ++ (writeUInt64 e k ++ (writeUInt64 e v ++
          ((tl.map (fun s => writeUInt64 e s.1 ++ writeUInt64 e s.2)).flatten ++ rest)))) off
        = some k :=
      readUInt64At_writeUInt64 e _ pre _ k off rfl hoff hbk
    have hread2 : readUInt64At e
        (pre ++ (writeUInt64 e k ++ (writeUInt64 e v ++
          ((tl.map (fun s => writeUInt64 e s.1 ++ writeUInt64 e s.2)).flatten ++ rest))))
        (off + 8) = some v :=
      readUInt64At_writeUInt64 e _ (pre ++ writeUInt64 e k)
        ((tl.map (fun s => writeUInt64 e s.1 ++ writeUInt64 e s.2)).flatten ++ rest)
        v (off + 8)
        (by simp [List.append_assoc]) (by simp only [List.length_append, hw]; omega) hbv
    have hrec : readSizeTable e
        (pre ++ (writeUInt64 e k ++ (writeUInt64 e v ++
          ((tl.map (fun s => writeUInt64 e s.1 ++ writeUInt64 e s.2)).flatten ++ rest))))
        tl.length (off + 16) = some tl := by
      have h0 := ih (pre ++ writeUInt64 e k ++ writeUInt64 e v) rest (off + 16)
        (by simp only [List.length_append, hw]; omega)
        (fun x hx => hbound x (by simp [hx]))
      simpa [List.append_assoc] using h0
    simp only [readSizeTable, hread1, hread2, hrec]

theorem sliceFields_encode (fields : List (List Nat × List Nat)) :
    ∀ (pre rest : List Nat) (off : Nat), off = pre.length →
    sliceFields (pre ++ (payloadBytes fields ++ rest)) (sizesOf fields) off
      = some (fields, off + sumLen fields) := by
  induction fields with
  | nil =>
    intro pre rest off hoff
    simp [payloadBytes, sizesOf, sliceFields, sumLen]
  | cons f tl ih =>
    intro pre rest off hoff
    obtain ⟨key, val⟩ := f
    have hb : pre ++ (payloadBytes ((key, val) :: tl) ++ rest)
        = pre ++ (key ++ (val ++ (payloadBytes tl ++ rest))) := by
      simp [payloadBytes, List.append_assoc]
    rw [hb]
    have hlen : (pre ++ (key ++ (val ++ (payloadBytes tl ++ rest)))).length
        = off + key.length + val.length + (payloadBytes tl).length + rest.length := by
      simp only [List.length_append, hoff]
      omega
    simp only [sizesOf, List.map_cons]
    unfold sliceFields
    rw [if_pos (by constructor <;> right <;> rw [hlen] <;> omega)]
    have hkey : slice (pre ++ (key ++ (val ++ (payloadBytes tl ++ rest)))) off key.length
        = key := by
      unfold slice
      rw [hoff, List.drop_left pre _, List.take_left]
    have hval : slice (pre ++ (key ++ (val ++ (payloadBytes tl ++ rest))))
        (off + key.length) val.length = val := by
      unfold slice
      rw [show pre ++ (key ++ (val ++ (payloadBytes tl ++ rest)))
          = (pre ++ key) ++ (val ++ (payloadBytes tl ++ rest)) from by simp,
        List.drop_left' (by simp [List.length_append, hoff]), List.take_left]
    have hrec : sliceFields (pre ++ (key ++ (val ++ (payloadBytes tl ++ rest))))
        (tl.map (fun f => (f.1.length, f.2.length))) (off + key.length + val.length)
        = some (tl, off + key.length + val.length + sumLen tl) := by
      have h0 := ih (pre ++ key ++ val) rest (off + key.length + val.length)
        (by simp [List.length_append, hoff, Nat.add_assoc])
      simpa [sizesOf, List.append_assoc] using h0
    rw [hrec, hkey, hval]
    have hsum : off + key.length + val.length + sumLen tl
        = off + sumLen ((key, val) :: tl) := by
      simp only [sumLen, List.map_cons, List.sum_cons]
      omega
    rw [hsum]

/-! ## Frame assembly lemmas -/

/-- The body of the frame (everything after the leading `total_length`
word): `num_fields`, the size table, the payload. -/
def bodyBytes (e : Endian) (fields : List (List Nat × List Nat)) : List Nat :=
  writeUInt64 e fields.length ++ (tableBytes e fields ++ payloadBytes fields)

theorem tableBytes_length (e : Endian) (fields : List (List Nat × List Nat)) :
    (tableBytes e fields).length = 16 * fields.length := by
  induction fields with
  | nil => rfl
  | cons f tl ih =>
    simp only [tableBytes, List.map_cons, List.flatten_cons, List.length_append,
      writeUInt64_length, List.length_cons] at *
    omega

theorem payloadBytes_length (fields : List (List Nat × List Nat)) :
    (payloadBytes fields).length = sumLen fields := by
  induction fields with
  | nil => rfl
  | cons f tl ih =>
    simp only [payloadBytes, sumLen, List.map_cons, List.flatten_cons, List.length_append,
      List.sum_cons] at *
    omega

theorem bodyBytes_length (e : Endian) (fields : List (List Nat × List Nat)) :
    (bodyBytes e fields).length = totalLength fields := by
  simp only [bodyBytes, totalLength, List.length_append, writeUInt64_length,
    tableBytes_length, payloadBytes_length]
  omega

theorem foldl_total (response : List (List Nat × List Nat)) :
    ∀ a, response.foldl (fun acc f => acc + f.1.length + f.2.length) a
      = a + sumLen response := by
  induction response with
  | nil => intro a; simp [sumLen]
  | cons f tl ih =>
    intro a
    simp only [List.foldl_cons, ih, sumLen, List.map_cons, List.sum_cons]
    omega

theorem sendResponse_eq (e : Endian) (response : List (List Nat × List Nat)) :
    sendResponse e response
      = writeUInt64 e (totalLength response) ++ bodyBytes e response := by
  unfold sendResponse
  show writeUInt64 e (response.foldl (fun acc f => acc + f.1.length + f.2.length) 0
        + 8 * (1 + 2 * response.length)) ++ writeUInt64 e response.length ++
      (response.map (fun f => writeUInt64 e f.1.length ++ writeUInt64 e f.2.length)).flatten ++
      (response.map (fun f => f.1 ++ f.2)).flatten
    = writeUInt64 e (totalLength response) ++ bodyBytes e response
  rw [foldl_total response 0,
    show 0 + sumLen response + 8 * (1 + 2 * response.length) = totalLength response from by
      unfold totalLength
      omega]
  simp [bodyBytes, tableBytes, payloadBytes, List.append_assoc]

theorem parseBuffer_encode (e : Endian) (fields : List (List Nat × List Nat))
    (hn : fields.length < 2 ^ 64)
    (hsz : ∀ f ∈ fields, f.1.length < 2 ^ 64 ∧ f.2.length < 2 ^ 64) :
    parseBuffer e (bodyBytes e fields) = .ok fields := by
  have h1 : readUInt64At e (bodyBytes e fields) 0 = some fields.length :=
    readUInt64At_writeUInt64 e _ [] (tableBytes e fields ++ payloadBytes fields)
      fields.length 0 rfl rfl hn
  have htb : tableBytes e fields
      = ((sizesOf fields).map (fun s => writeUInt64 e s.1 ++ writeUInt64 e s.2)).flatten := by
    simp only [tableBytes, sizesOf, List.map_map]
    rfl
  have h2 : readSizeTable e (bodyBytes e fields) fields.length 8 = some (sizesOf fields) := by
    have h0 := readSizeTable_encode e (sizesOf fields) (writeUInt64 e fields.length)
      (payloadBytes fields) 8 (writeUInt64_length e _).symm
      (by
        intro s hs
        simp only [sizesOf, List.mem_map] at hs
        obtain ⟨f, hf, rfl⟩ := hs
        exact hsz f hf)
    rw [show (sizesOf fields).length = fields.length from by simp [sizesOf]] at h0
    rw [bodyBytes, htb]
    exact h0
  have h3 : sliceFields (bodyBytes e fields) (sizesOf fields) (8 + 16 * fields.length)
      = some (fields, 8 + 16 * fields.length + sumLen fields) := by
    have h0 := sliceFields_encode fields (writeUInt64 e fields.length ++ tableBytes e fields)
      [] (8 + 16 * fields.length)
      (by simp [List.length_append, writeUInt64_length, tableBytes_length])
    rw [show (writeUInt64 e fields.length ++ tableBytes e fields) ++ (payloadBytes fields ++ [])
        = bodyBytes e fields from by simp [bodyBytes, List.append_assoc]] at h0
    exact h0
  simp only [parseBuffer, h1, h2, h3, bodyBytes_length]
  rw [if_pos (show 8 + 16 * fields.length + sumLen fields = totalLength fields from rfl)]

theorem totalLength_bounds (fields : List (List Nat × List Nat))
    (hmax : totalLength fields < kMaxRequestDataLength) :
    fields.length < 2 ^ 64 ∧ totalLength fields < 2 ^ 64 ∧
      ∀ f ∈ fields, f.1.length < 2 ^ 64 ∧ f.2.length < 2 ^ 64 := by
  have hmax' : totalLength fields < 0x10000000 := hmax
  have hsum : ∀ f ∈ fields, f.1.length + f.2.length ≤ sumLen fields := by
    intro f hf
    unfold sumLen
    exact List.le_sum_of_mem (List.mem_map_of_mem _ hf)
  unfold totalLength at *
  refine ⟨by omega, by omega, fun f hf => ?_⟩
  have := hsum f hf
  omega

theorem receiveRequest_sendResponse (e : Endian) (fields : List (List Nat × List Nat))
    (hmax : totalLength fields < kMaxRequestDataLength) :
    receiveRequest e (sendResponse e fields) = ⟨.ok fields, true⟩ := by
  obtain ⟨hn, ht, hsz⟩ := totalLength_bounds fields hmax
  rw [sendResponse_eq]
  have hlen : (writeUInt64 e (totalLength fields) ++ bodyBytes e fields).length
      = 8 + totalLength fields := by
    simp [List.length_append, writeUInt64_length, bodyBytes_length]
  have htake : (writeUInt64 e (totalLength fields) ++ bodyBytes e fields).take 8
      = writeUInt64 e (totalLength fields) :=
    List.take_left' (writeUInt64_length e _)
  have hdecode : Ntohll e (loadHost e
      ((writeUInt64 e (totalLength fields) ++ bodyBytes e fields).take 8))
      = totalLength fields := by
    rw [htake]
    unfold writeUInt64
    rw [Nat.mod_eq_of_lt ht, loadHost_storeHost e _ (Htonll_lt e _), Ntohll_Htonll e _ ht]
  have hdrop : (writeUInt64 e (totalLength fields) ++ bodyBytes e fields).drop 8
      = bodyBytes e fields :=
    List.drop_left' (writeUInt64_length e _)
  unfold receiveRequest
  rw [if_pos (by omega)]
  simp only [hdecode]
  rw [if_neg (by unfold kMaxRequestDataLength at *; omega)]
  rw [if_pos (by omega)]
  rw [hdrop, show (bodyBytes e fields).take (totalLength fields) = bodyBytes e fields from by
    rw [← bodyBytes_length e fields]; exact List.take_length _]
  rw [parseBuffer_encode e fields hn hsz]

/-! ## Record lemmas -/

theorem setField_of_not_mem (r : List (List Nat × List Nat)) (key value : List Nat)
    (h : key ∉ r.map Prod.fst) : setField r key value = r ++ [(key, value)] := by
  unfold setField
  rw [if_neg (by
    rw [List.any_eq_true]
    rintro ⟨f, hf, hfk⟩
    rw [decide_eq_true_eq] at hfk
    exact h (hfk ▸ List.mem_map_of_mem Prod.fst hf))]

theorem foldl_setField (fields : List (List Nat × List Nat)) :
    ∀ acc, (((acc ++ fields).map Prod.fst).Nodup) →
    fields.foldl (fun r f => setField r f.1 f.2) acc = acc ++ fields := by
  induction fields with
  | nil => intro acc _; simp
  | cons f tl ih =>
    intro acc h
    obtain ⟨key, val⟩ := f
    have hnotmem : key ∉ acc.map Prod.fst := by
      rw [List.map_append, List.nodup_append] at h
      intro hmem
      exact h.2.2 hmem (by simp)
    have hstep : setField acc key val = acc ++ [(key, val)] :=
      setField_of_not_mem acc key val hnotmem
    simp only [List.foldl_cons, hstep]
    rw [ih (acc ++ [(key, val)]) (by rw [show (acc ++ [(key, val)]) ++ tl
        = acc ++ ((key, val) :: tl) from by simp]; exact h)]
    simp

theorem populateRecord_nodup (fields : List (List Nat × List Nat))
    (h : (fields.map Prod.fst).Nodup) : populateRecord fields = fields := by
  unfold populateRecord
  have := foldl_setField fields [] (by simpa using h)
  simpa using this

/-! ## receiveRequest case analysis -/

theorem receiveRequest_def (e : Endian) (stream : List Nat) (h8 : 8 ≤ stream.length) :
    receiveRequest e stream =
      if Ntohll e (loadHost e (stream.take 8)) ≥ kMaxRequestDataLength then
        ⟨.err (.oversized (Ntohll e (loadHost e (stream.take 8)))), false⟩
      else if Ntohll e (loadHost e (stream.take 8)) ≤ stream.length - 8 then
        ⟨parseBuffer e ((stream.drop 8).take (Ntohll e (loadHost e (stream.take 8)))), true⟩
      else
        ⟨.err .truncated, true⟩ := by
  unfold receiveRequest
  rw [if_pos h8]

theorem receiveRequest_short (e : Endian) (stream : List Nat) (h8 : stream.length < 8) :
    receiveRequest e stream = ⟨.err .truncated, false⟩ := by
  unfold receiveRequest
  rw [if_neg (by omega)]

theorem parseBuffer_ne_err (e : Endian) (buf : List Nat) (de : DecodeErr) :
    parseBuffer e buf ≠ .err de := by
  unfold parseBuffer
  cases h1 : readUInt64At e buf 0 with
  | none => simp
  | some n =>
    cases h2 : readSizeTable e buf n 8 with
    | none => simp [h2]
    | some sizes =>
      cases h3 : sliceFields buf sizes (8 + 16 * n) with
      | none => simp [h2, h3]
      | some p =>
        obtain ⟨fs, fin⟩ := p
        by_cases hf : fin = buf.length <;> simp [h2, h3, hf]

/-! ## Claim theorems -/

/-- C1: for every Record whose computed `total_length`
(8 + 16×num_fields + Σ of all key and value byte lengths) is strictly
below the maximum body size, encoding it with `sendResponse` and decoding
the produced byte stream with `receiveRequest` succeeds and yields a
Record with identical key/value pairs (here: the identical field list in
the identical order, which is stronger than order-insensitive set
equality), including zero-length values and non-text bytes in values; the
decoder's `setField` population reproduces the Record exactly (Records
have unique keys).  Holds on either host endianness. -/
theorem encode_decode_roundtrip (e : Endian) (fields : List (List Nat × List Nat))
    (hkeys : (fields.map Prod.fst).Nodup)
    (hmax : totalLength fields < kMaxRequestDataLength) :
    receiveRequest e (sendResponse e fields) = ⟨.ok fields, true⟩ ∧
      populateRecord fields = fields :=
  ⟨receiveRequest_sendResponse e fields hmax, populateRecord_nodup fields hkeys⟩

theorem encode_decode_roundtrip_witness :
    (([([1, 255], [0]), ([2], [])] : List (List Nat × List Nat)).map Prod.fst).Nodup ∧
      totalLength [([1, 255], [0]), ([2], [])] < kMaxRequestDataLength ∧
      receiveRequest .little (sendResponse .little [([1, 255], [0]), ([2], [])])
        = ⟨.ok [([1, 255], [0]), ([2], [])], true⟩ ∧
      populateRecord [([1, 255], [0]), ([2], [])] = [([1, 255], [0]), ([2], [])] :=
  ⟨by decide, by decide,
    (encode_decode_roundtrip .little [([1, 255], [0]), ([2], [])] (by decide) (by decide)).1,
    (encode_decode_roundtrip .little [([1, 255], [0]), ([2], [])] (by decide) (by decide)).2⟩

/-- C2: `sendResponse` writes exactly one framed message: first the
length field holding `8 + 16×num_fields + Σ(key_len + val_len)`, then
`num_fields`, then one `(key_length, value_length)` pair per field, then
each field's key bytes immediately followed by its value bytes, the
payload in the same field order as the size table; read back the way the
receiver reads 64-bit words, the first two words decode to `total_length`
and `num_fields`. -/
theorem sendResponse_wire_format (e : Endian) (response : List (List Nat × List Nat))
    (h : totalLength response < 2 ^ 64) :
    sendResponse e response
      = writeUInt64 e (8 + 16 * response.length + sumLen response) ++
        (writeUInt64 e response.length ++
          ((response.map (fun f => writeUInt64 e f.1.length ++ writeUInt64 e f.2.length)).flatten ++
            (response.map (fun f => f.1 ++ f.2)).flatten)) ∧
      readUInt64At e (sendResponse e response) 0 = some (totalLength response) ∧
      readUInt64At e (sendResponse e response) 8 = some response.length := by
  have hn : response.length < 2 ^ 64 := by
    unfold totalLength at h
    omega
  have hs := sendResponse_eq e response
  refine ⟨?_, ?_, ?_⟩
  · rw [hs]
    rfl
  · rw [hs]
    exact readUInt64At_writeUInt64 e _ [] (bodyBytes e response) _ 0 rfl rfl h
  · rw [hs]
    exact readUInt64At_writeUInt64 e _ (writeUInt64 e (totalLength response))
      (tableBytes e response ++ payloadBytes response) response.length 8 rfl
      (writeUInt64_length e _).symm hn

theorem sendResponse_wire_format_witness :
    totalLength [([1], [2, 3])] < 2 ^ 64 ∧
      readUInt64At .little (sendResponse .little [([1], [2, 3])]) 0
        = some (totalLength [([1], [2, 3])]) :=
  ⟨by decide, (sendResponse_wire_format .little [([1], [2, 3])] (by decide)).2.1⟩

/-- C3: a message whose declared `total_length` is ≥ `kMaxRequestDataLength`
(256 MiB) is rejected: `receiveRequest` throws the oversized-request error
before `malloc` (allocated = false) and the constructor stores the
corresponding message; for a declared length strictly below the maximum
this rejection never occurs. -/
theorem oversized_rejected (e : Endian) (stream : List Nat) (len : Nat)
    (h8 : 8 ≤ stream.length)
    (hlen : len = Ntohll e (loadHost e (stream.take 8))) :
    (kMaxRequestDataLength ≤ len →
      receiveRequest e stream = ⟨.err (.oversized len), false⟩ ∧
      mkConnection e stream
        = some ⟨[], some ("Overflow request data length = " ++ toString len), false⟩) ∧
    (len < kMaxRequestDataLength →
      ∀ l, (receiveRequest e stream).outcome ≠ .err (.oversized l)) := by
  subst hlen
  rw [receiveRequest_def e stream h8]
  constructor
  · intro hge
    rw [if_pos hge]
    refine ⟨rfl, ?_⟩
    unfold mkConnection
    rw [receiveRequest_def e stream h8, if_pos hge]
    rfl
  · intro hlt l
    rw [if_neg (by omega)]
    by_cases havail : Ntohll e (loadHost e (stream.take 8)) ≤ stream.length - 8
    · rw [if_pos havail]
      exact parseBuffer_ne_err e _ _
    · rw [if_neg havail]
      simp

theorem oversized_rejected_witness :
    8 ≤ (writeUInt64 Endian.little 99999999999).length ∧
      receiveRequest .little (writeUInt64 .little 99999999999)
        = ⟨.err (.oversized 99999999999), false⟩ := by
  have h := (oversized_rejected .little (writeUInt64 .little 99999999999)
    99999999999 (by decide) (by decide)).1 (by decide)
  exact ⟨by decide, h.1⟩

/-- C5: the `receiveData` read loop either consumes reads until exactly
the requested number of bytes has been received (success), or — when a
`read` returns zero or a negative count, or the connection delivers
nothing more, before the total is reached — aborts with the
truncated-connection decode error, having received strictly fewer bytes
than requested; it never returns with a short buffer. -/
theorem receiveData_exact_or_aborts (reads : List Int) (bytes : Nat) :
    (∃ rest, receiveData reads bytes = .ok rest ∧ receivedBytes reads bytes = bytes) ∨
    (receiveData reads bytes = .error .truncated ∧ receivedBytes reads bytes < bytes) := by
  induction reads generalizing bytes with
  | nil =>
    cases bytes with
    | zero => exact .inl ⟨[], rfl, rfl⟩
    | succ b => exact .inr ⟨rfl, by unfold receivedBytes; omega⟩
  | cons r rest ih =>
    cases bytes with
    | zero => exact .inl ⟨r :: rest, rfl, rfl⟩
    | succ b =>
      by_cases hr : r ≤ 0
      · refine .inr ⟨?_, ?_⟩
        · unfold receiveData
          rw [if_pos hr]
        · unfold receivedBytes
          rw [if_pos hr]
          omega
      · rcases ih (b + 1 - r.toNat) with ⟨rest', hok, hcount⟩ | ⟨herr, hcount⟩
        · refine .inl ⟨rest', ?_, ?_⟩
          · unfold receiveData
            rw [if_neg hr]
            exact hok
          · unfold receivedBytes
            rw [if_neg hr, hcount]
            omega
        · refine .inr ⟨?_, ?_⟩
          · unfold receiveData
            rw [if_neg hr]
            exact herr
          · unfold receivedBytes
            rw [if_neg hr]
            omega

theorem readUInt64At_none (e : Endian) (buf : List Nat) (off : Nat)
    (h : ¬(off + 8 ≤ buf.length)) : readUInt64At e buf off = none := by
  unfold readUInt64At
  rw [if_neg h]

theorem readUInt64At_isSome (e : Endian) (buf : List Nat) (off : Nat) :
    (readUInt64At e buf off).isSome ↔ off + 8 ≤ buf.length := by
  unfold readUInt64At
  by_cases h : off + 8 ≤ buf.length
  · rw [if_pos h]
    simp [h]
  · rw [if_neg h]
    simp [h]

theorem mkConnection_cases (e : Endian) (stream : List Nat) :
    mkConnection e stream
      = match (receiveRequest e stream).outcome with
        | .ok fields =>
          some ⟨populateRecord fields, none, (receiveRequest e stream).allocated⟩
        | .err de =>
          some ⟨[], some (errorString de), (receiveRequest e stream).allocated⟩
        | .fatal => none
        | .oob => none := rfl

/-- C4: when the in-buffer parse performs all its reads in bounds (the
`num_fields` word, the size table, every key/value slice), decode
completes with the parsed fields exactly when the final cursor lands at
`buffer start + total_length`; on a mismatch the `CHECK_EQ` fails — a
fatal, process-terminating assertion, so no Connection object and no
recoverable stored decode error exist. -/
theorem framing_check_fatal (e : Endian) (stream buf : List Nat)
    (n fin : Nat) (sizes : List (Nat × Nat)) (fields : List (List Nat × List Nat))
    (h8 : 8 ≤ stream.length)
    (hmax : Ntohll e (loadHost e (stream.take 8)) < kMaxRequestDataLength)
    (havail : Ntohll e (loadHost e (stream.take 8)) ≤ stream.length - 8)
    (hbuf : buf = (stream.drop 8).take (Ntohll e (loadHost e (stream.take 8))))
    (h1 : readUInt64At e buf 0 = some n)
    (h2 : readSizeTable e buf n 8 = some sizes)
    (h3 : sliceFields buf sizes (8 + 16 * n) = some (fields, fin)) :
    ((receiveRequest e stream).outcome = .ok fields ↔ fin = buf.length) ∧
    (fin ≠ buf.length →
      (receiveRequest e stream).outcome = .fatal ∧ mkConnection e stream = none) := by
  have hr : receiveRequest e stream = ⟨parseBuffer e buf, true⟩ := by
    rw [receiveRequest_def e stream h8, if_neg (by omega), if_pos havail, hbuf]
  have hp : parseBuffer e buf = if fin = buf.length then .ok fields else .fatal := by
    simp only [parseBuffer, h1, h2, h3]
  constructor
  · rw [hr]
    by_cases hf : fin = buf.length
    · simp [hp, hf]
    · simp [hp, hf]
  · intro hf
    have hpf : parseBuffer e buf = .fatal := by rw [hp, if_neg hf]
    refine ⟨by rw [hr]; exact hpf, ?_⟩
    rw [mkConnection_cases, hr]
    simp [hpf]

theorem framing_check_fatal_witness :
    (receiveRequest .little
        (writeUInt64 .little 9 ++ writeUInt64 .little 0 ++ [7])).outcome = .fatal ∧
      mkConnection .little (writeUInt64 .little 9 ++ writeUInt64 .little 0 ++ [7])
        = none :=
  (framing_check_fatal .little (writeUInt64 .little 9 ++ writeUInt64 .little 0 ++ [7])
    (writeUInt64 .little 0 ++ [7]) 0 8 [] []
    (by decide) (by decide) (by decide) (by decide) (by decide) (by decide) (by decide)).2
    (by decide)

/-- C6: for every live Connection, the destructor shuts down and closes
the socket iff the receive buffer was allocated during decode, i.e. iff
the 8-byte length word was fully read and passed the oversized bound —
regardless of whether reading or parsing the body later failed; in
particular, when decode aborts on the oversized check before `malloc`, no
shutdown or close happens and the socket handle leaks. -/
theorem socket_cleanup_iff_allocated (e : Endian) (stream : List Nat)
    (c : SimpleSocketConnection) (h : mkConnection e stream = some c) :
    (destructorClosesSocket c = true ↔ (receiveRequest e stream).allocated = true) ∧
    ((receiveRequest e stream).allocated = true ↔
      8 ≤ stream.length ∧ Ntohll e (loadHost e (stream.take 8)) < kMaxRequestDataLength) := by
  constructor
  · rw [mkConnection_cases] at h
    cases ho : (receiveRequest e stream).outcome with
    | ok fields =>
      rw [ho] at h
      injection h with h
      subst h
      rfl
    | err de =>
      rw [ho] at h
      injection h with h
      subst h
      rfl
    | fatal =>
      rw [ho] at h
      simp at h
    | oob =>
      rw [ho] at h
      simp at h
  · by_cases h8 : 8 ≤ stream.length
    · rw [receiveRequest_def e stream h8]
      by_cases hge : Ntohll e (loadHost e (stream.take 8)) ≥ kMaxRequestDataLength
      · rw [if_pos hge]
        simp only [Bool.false_eq_true, false_iff]
        intro hc
        omega
      · rw [if_neg hge]
        by_cases hav : Ntohll e (loadHost e (stream.take 8)) ≤ stream.length - 8
        · rw [if_pos hav]
          simp only [true_iff]
          exact ⟨h8, by omega⟩
        · rw [if_neg hav]
          simp only [true_iff]
          exact ⟨h8, by omega⟩
    · rw [receiveRequest_short e stream (by omega)]
      simp only [Bool.false_eq_true, false_iff]
      intro hc
      exact h8 hc.1

theorem socket_cleanup_iff_allocated_witness :
    destructorClosesSocket ⟨[], some (errorString .truncated), false⟩ = true
      ↔ (receiveRequest .little []).allocated = true :=
  (socket_cleanup_iff_allocated .little []
    ⟨[], some (errorString DecodeErr.truncated), false⟩ (by decide)).1

/-- C9: every error thrown during decode (length read, bound check,
buffer fill) is caught at the Connection constructor and converted into a
stored error message: the constructor yields a live object (no exception
escapes), `hasError` becomes true, the stored string is the exception's
`what()`, and the Record holds exactly the fields set before the failure
— none, since both throw sites precede field population. -/
theorem decode_errors_caught (e : Endian) (stream : List Nat) (de : DecodeErr)
    (h : (receiveRequest e stream).outcome = .err de) :
    mkConnection e stream
      = some ⟨[], some (errorString de), (receiveRequest e stream).allocated⟩ ∧
    ∀ c, mkConnection e stream = some c →
      hasError c = true ∧ c.request = [] ∧ c.error_message = some (errorString de) := by
  have h1 : mkConnection e stream
      = some ⟨[], some (errorString de), (receiveRequest e stream).allocated⟩ := by
    rw [mkConnection_cases, h]
  refine ⟨h1, fun c hc => ?_⟩
  rw [h1] at hc
  injection hc with hc
  subst hc
  exact ⟨rfl, rfl, rfl⟩

theorem decode_errors_caught_witness :
    mkConnection .little []
      = some ⟨[], some (errorString .truncated), (receiveRequest .little []).allocated⟩ :=
  (decode_errors_caught .little [] .truncated (by decide)).1

theorem readSizeTable_isSome (e : Endian) (buf : List Nat) :
    ∀ (n off : Nat),
      (readSizeTable e buf n off).isSome ↔ (n = 0 ∨ off + 16 * n ≤ buf.length) := by
  intro n
  induction n with
  | zero => intro off; simp [readSizeTable]
  | succ m ih =>
    intro off
    by_cases h16 : off + 16 ≤ buf.length
    · obtain ⟨k, hk⟩ := Option.isSome_iff_exists.1
        ((readUInt64At_isSome e buf off).2 (by omega))
      obtain ⟨v, hv⟩ := Option.isSome_iff_exists.1
        ((readUInt64At_isSome e buf (off + 8)).2 (by omega))
      have hrec := ih (off + 16)
      unfold readSizeTable
      rw [hk, hv]
      cases htl : readSizeTable e buf m (off + 16) with
      | none =>
        rw [htl] at hrec
        simp only [Option.isSome_none, Bool.false_eq_true, false_iff] at hrec
        simp only [Option.isSome_none, Bool.false_eq_true, false_iff]
        omega
      | some rest =>
        rw [htl] at hrec
        simp only [Option.isSome_some, true_iff] at hrec
        simp only [Option.isSome_some, true_iff]
        omega
    · unfold readSizeTable
      have hkn : readUInt64At e buf off = none ∨ readUInt64At e buf (off + 8) = none := by
        by_cases h8 : off + 8 ≤ buf.length
        · exact .inr (readUInt64At_none e buf (off + 8) (by omega))
        · exact .inl (readUInt64At_none e buf off h8)
      rcases hkn with hkn | hkn
      · rw [hkn]
        simp only [Option.isSome_none, Bool.false_eq_true, false_iff]
        omega
      · rw [hkn]
        cases hk : readUInt64At e buf off <;>
          simp only [Option.isSome_none, Bool.false_eq_true, false_iff] <;> omega

theorem sliceFields_char (buf : List Nat) :
    ∀ (sizes : List (Nat × Nat)) (off : Nat), off ≤ buf.length →
      ((sliceFields buf sizes off).isSome ↔ off + sizesSum sizes ≤ buf.length) ∧
      (∀ fs fin, sliceFields buf sizes off = some (fs, fin) →
        fin = off + sizesSum sizes) := by
  intro sizes
  induction sizes with
  | nil =>
    intro off hoff
    constructor
    · simp [sliceFields, sizesSum]
      omega
    · intro fs fin h
      simp only [sliceFields, Option.some.injEq, Prod.mk.injEq] at h
      simp [sizesSum]
      omega
  | cons s tl ih =>
    obtain ⟨k, v⟩ := s
    intro off hoff
    have hsum : sizesSum ((k, v) :: tl) = k + v + sizesSum tl := by
      simp only [sizesSum, List.map_cons, List.sum_cons]
    by_cases hcond : (k = 0 ∨ off + k ≤ buf.length) ∧ (v = 0 ∨ off + k + v ≤ buf.length)
    · by_cases hfit : off + k + v ≤ buf.length
      · have hih := ih (off + k + v) hfit
        unfold sliceFields
        rw [if_pos hcond]
        cases htl : sliceFields buf tl (off + k + v) with
        | none =>
          have hns := hih.1
          rw [htl] at hns
          simp only [Option.isSome_none, Bool.false_eq_true, false_iff] at hns
          constructor
          · simp only [Option.isSome_none, Bool.false_eq_true, false_iff]
            omega
          · intro fs fin h
            simp at h
        | some p =>
          obtain ⟨fs0, fin0⟩ := p
          have hss := hih.1
          rw [htl] at hss
          simp only [Option.isSome_some, true_iff] at hss
          have hfin := hih.2 fs0 fin0 htl
          constructor
          · simp only [Option.isSome_some, true_iff]
            omega
          · intro fs fin h
            simp only [Option.some.injEq, Prod.mk.injEq] at h
            omega
      · exfalso
        rcases hcond with ⟨hck, hcv⟩
        rcases hck with hck | hck <;> rcases hcv with hcv | hcv <;> omega
    · unfold sliceFields
      rw [if_neg hcond]
      constructor
      · simp only [Option.isSome_none, Bool.false_eq_true, false_iff]
        intro hle
        apply hcond
        constructor
        · right; omega
        · right; omega
      · intro fs fin h
        simp at h

/-- C10: the decoder reads the `num_fields` word and the 16×num_fields
byte size table with no check against `total_length`, so its buffer
accesses stay within the allocated `total_length` bytes exactly under the
precondition `8 + 16×num_fields + Σ(key_len+val_len) ≤ total_length`; for
any buffer violating it — any `total_length < 8`, any size table
extending past the buffer, any slice sum overrunning it — some read falls
outside the buffer (outcome `oob`) before the final consistency check is
reached. -/
theorem parse_buffer_bounds (e : Endian) (buf : List Nat) :
    (buf.length < 8 → parseBuffer e buf = .oob) ∧
    (∀ n, readUInt64At e buf 0 = some n → buf.length < 8 + 16 * n →
      parseBuffer e buf = .oob) ∧
    (∀ n sizes, readUInt64At e buf 0 = some n →
      readSizeTable e buf n 8 = some sizes →
      (parseBuffer e buf ≠ .oob ↔ 8 + 16 * n + sizesSum sizes ≤ buf.length)) := by
  refine ⟨?_, ?_, ?_⟩
  · intro hlen
    unfold parseBuffer
    rw [readUInt64At_none e buf 0 (by omega)]
  · intro n h1 hlen
    have h8 : 8 ≤ buf.length := by
      have := (readUInt64At_isSome e buf 0).1 (by rw [h1]; rfl)
      omega
    have htn : readSizeTable e buf n 8 = none := by
      cases ht : readSizeTable e buf n 8 with
      | none => rfl
      | some sizes =>
        exfalso
        have := (readSizeTable_isSome e buf n 8).1 (by rw [ht]; rfl)
        omega
    simp only [parseBuffer, h1, htn]
  · intro n sizes h1 h2
    have h8 : 8 ≤ buf.length := by
      have := (readUInt64At_isSome e buf 0).1 (by rw [h1]; rfl)
      omega
    have hstart : 8 + 16 * n ≤ buf.length := by
      have := (readSizeTable_isSome e buf n 8).1 (by rw [h2]; rfl)
      omega
    have hchar := sliceFields_char buf sizes (8 + 16 * n) hstart
    simp only [parseBuffer, h1, h2]
    cases hsf : sliceFields buf sizes (8 + 16 * n) with
    | none =>
      have := hchar.1
      rw [hsf] at this
      simp only [Option.isSome_none, Bool.false_eq_true, false_iff] at this
      simp only [ne_eq, not_true_eq_false, false_iff]
      omega
    | some p =>
      obtain ⟨fs, fin⟩ := p
      have := hchar.1
      rw [hsf] at this
      simp only [Option.isSome_some, true_iff] at this
      by_cases hf : fin = buf.length <;> simp [hf] <;> omega

theorem parse_buffer_bounds_witness :
    parseBuffer .little
        (writeUInt64 .little 1 ++ writeUInt64 .little 5 ++ writeUInt64 .little 5)
      = .oob := by
  have h := (parse_buffer_bounds .little
    (writeUInt64 .little 1 ++ writeUInt64 .little 5 ++ writeUInt64 .little 5)).2.2
    1 [(5, 5)] (by decide) (by decide)
  by_contra hne
  exact (by decide : ¬(8 + 16 * 1 + sizesSum [(5, 5)]
    ≤ (writeUInt64 Endian.little 1 ++ writeUInt64 Endian.little 5 ++
        writeUInt64 Endian.little 5).length)) (h.1 hne)

/-! ## Byte-order claims -/

theorem storeLEAux_split (j k v : Nat) :
    storeLEAux (j + k) v = storeLEAux j v ++ storeLEAux k (v / 256 ^ j) := by
  induction j generalizing v with
  | zero => simp [storeLEAux]
  | succ m ih =>
    have hj : m + 1 + k = (m + k) + 1 := by omega
    rw [hj]
    simp only [storeLEAux, List.cons_append, ih]
    have : v / 256 / 256 ^ m = v / 256 ^ (m + 1) := by
      rw [Nat.div_div_eq_div_mul, pow_succ, mul_comm (256 ^ m) 256]
    rw [this]

theorem storeLEAux_add_high (k v m : Nat) :
    storeLEAux k (v + m * 256 ^ k) = storeLEAux k v := by
  induction k generalizing v m with
  | zero => rfl
  | succ j ih =>
    simp only [storeLEAux]
    have h1 : (v + m * 256 ^ (j + 1)) % 256 = v % 256 := by
      have : v + m * 256 ^ (j + 1) = v + m * 256 ^ j * 256 := by ring
      rw [this, Nat.add_mul_mod_self_right]
    have h2 : (v + m * 256 ^ (j + 1)) / 256 = v / 256 + m * 256 ^ j := by
      have : v + m * 256 ^ (j + 1) = v + m * 256 ^ j * 256 := by ring
      rw [this, Nat.add_mul_div_right _ _ (by norm_num)]
    rw [h1, h2, ih]

theorem storeLEAux_four_digits (b0 b1 b2 b3 : Nat) (h0 : b0 < 256) (h1 : b1 < 256)
    (h2 : b2 < 256) (h3 : b3 < 256) :
    storeLEAux 4 (b0 + b1 * 2 ^ 8 + b2 * 2 ^ 16 + b3 * 2 ^ 24) = [b0, b1, b2, b3] := by
  have e8 : (2 : Nat) ^ 8 = 256 := by norm_num
  have e16 : (2 : Nat) ^ 16 = 65536 := by norm_num
  have e24 : (2 : Nat) ^ 24 = 16777216 := by norm_num
  rw [e8, e16, e24]
  have dd1 : (b0 + b1 * 256 + b2 * 65536 + b3 * 16777216) / 256 / 256
      = (b0 + b1 * 256 + b2 * 65536 + b3 * 16777216) / 65536 := by
    rw [Nat.div_div_eq_div_mul]
  have dd2 : (b0 + b1 * 256 + b2 * 65536 + b3 * 16777216) / 65536 / 256
      = (b0 + b1 * 256 + b2 * 65536 + b3 * 16777216) / 16777216 := by
    rw [Nat.div_div_eq_div_mul]
  simp only [storeLEAux, List.cons.injEq, and_true]
  refine ⟨?_, ?_, ?_, ?_⟩ <;> omega

theorem byte_decomposition (w : Nat) (h : w < 2 ^ 32) :
    w = w % 256 + (w / 2 ^ 8 % 256) * 2 ^ 8 + (w / 2 ^ 16 % 256) * 2 ^ 16
      + (w / 2 ^ 24 % 256) * 2 ^ 24 := by
  have e8 : (2 : Nat) ^ 8 = 256 := by norm_num
  have e16 : (2 : Nat) ^ 16 = 65536 := by norm_num
  have e24 : (2 : Nat) ^ 24 = 16777216 := by norm_num
  have h32 : (2 : Nat) ^ 32 = 4294967296 := by norm_num
  rw [e8, e16, e24]
  rw [h32] at h
  have d1 : w / 256 / 256 = w / 65536 := by rw [Nat.div_div_eq_div_mul]
  have d2 : w / 65536 / 256 = w / 16777216 := by rw [Nat.div_div_eq_div_mul]
  omega

theorem storeLEAux_four_bswap32 (w : Nat) (h : w < 2 ^ 32) :
    storeLEAux 4 (bswap32 w) = (storeLEAux 4 w).reverse := by
  have h0 : w % 256 < 256 := Nat.mod_lt _ (by norm_num)
  have h1 : w / 2 ^ 8 % 256 < 256 := Nat.mod_lt _ (by norm_num)
  have h2 : w / 2 ^ 16 % 256 < 256 := Nat.mod_lt _ (by norm_num)
  have h3 : w / 2 ^ 24 % 256 < 256 := Nat.mod_lt _ (by norm_num)
  have hdec := byte_decomposition w h
  have lhs1 : bswap32 w = w / 2 ^ 24 % 256 + (w / 2 ^ 16 % 256) * 2 ^ 8
      + (w / 2 ^ 8 % 256) * 2 ^ 16 + (w % 256) * 2 ^ 24 := by
    conv_lhs => rw [hdec]
    exact bswap32_bytes (w % 256) (w / 2 ^ 8 % 256) (w / 2 ^ 16 % 256)
      (w / 2 ^ 24 % 256) h0 h1 h2 h3
  rw [lhs1, storeLEAux_four_digits _ _ _ _ h3 h2 h1 h0]
  conv_rhs => rw [hdec, storeLEAux_four_digits _ _ _ _ h0 h1 h2 h3]
  rfl

theorem Htonll_little_bytes (x : Nat) (h : x < 2 ^ 64) :
    storeHost .little (Htonll .little x) = storeHost .big x := by
  have hp4 : (256 : Nat) ^ 4 = 2 ^ 32 := by norm_num
  have hlo : x % 2 ^ 32 < 2 ^ 32 := Nat.mod_lt _ (by norm_num)
  have hhi0 : x / 2 ^ 32 < 2 ^ 32 := by omega
  have hhi' : x / 2 ^ 32 % 2 ^ 32 = x / 2 ^ 32 := Nat.mod_eq_of_lt hhi0
  have hbl : bswap32 (x % 2 ^ 32) < 2 ^ 32 := bswap32_lt _
  have hbh : bswap32 (x / 2 ^ 32) < 2 ^ 32 := bswap32_lt _
  have hx : Htonll .little x
      = bswap32 (x / 2 ^ 32) + bswap32 (x % 2 ^ 32) * 256 ^ 4 := by
    show bswap32 (x % 2 ^ 32) * 2 ^ 32 + bswap32 (x / 2 ^ 32 % 2 ^ 32)
      = bswap32 (x / 2 ^ 32) + bswap32 (x % 2 ^ 32) * 256 ^ 4
    rw [hhi', hp4]
    omega
  have hxsplit : x = x % 2 ^ 32 + (x / 2 ^ 32) * 256 ^ 4 := by
    rw [hp4]
    omega
  have hdiv1 : (bswap32 (x / 2 ^ 32) + bswap32 (x % 2 ^ 32) * 256 ^ 4) / 256 ^ 4
      = bswap32 (x % 2 ^ 32) := by
    rw [Nat.add_mul_div_right _ _ (by norm_num : (0 : Nat) < 256 ^ 4),
      Nat.div_eq_of_lt (by rw [hp4]; exact hbh), Nat.zero_add]
  have hdiv2 : (x % 2 ^ 32 + (x / 2 ^ 32) * 256 ^ 4) / 256 ^ 4 = x / 2 ^ 32 := by
    rw [Nat.add_mul_div_right _ _ (by norm_num : (0 : Nat) < 256 ^ 4),
      Nat.div_eq_of_lt (by rw [hp4]; exact hlo), Nat.zero_add]
  show storeLEAux 8 (Htonll .little x) = (storeLEAux 8 x).reverse
  rw [hx, show (8 : Nat) = 4 + 4 from rfl, storeLEAux_split, hdiv1, storeLEAux_add_high]
  conv_rhs => rw [hxsplit, storeLEAux_split, hdiv2, storeLEAux_add_high]
  rw [List.reverse_append, storeLEAux_four_bswap32 _ hlo, storeLEAux_four_bswap32 _ hhi0]

/-- C7 counterexample: on a big-endian host, where `ntohl`/`htonl` are the
identity, `Htonll` swaps the two 32-bit halves of its argument, so the
bytes written on the wire for the value 1 differ from the network
(big-endian) representation of 1. -/
theorem htonll_not_endian_independent :
    storeHost .big (Htonll .big 1) ≠ storeHost .big 1 := by decide

/-- C7 amended: for every 64-bit value, `Ntohll` inverts `Htonll` on both
host endiannesses (host→network→host round-trips), and on a little-endian
host the wire bytes of `Htonll x` are the network (big-endian)
representation of `x`; but on a big-endian host `Htonll` produces the
word-swapped value, whose bytes differ from the big-endian representation
of `x` whenever the two 32-bit halves of `x` differ — so the wire bytes
are not identical across host endiannesses. -/
theorem htonll_roundtrip_little_wire (x : Nat) (h : x < 2 ^ 64) :
    (∀ e, Ntohll e (Htonll e x) = x) ∧
    storeHost .little (Htonll .little x) = storeHost .big x ∧
    (x / 2 ^ 32 % 2 ^ 32 ≠ x % 2 ^ 32 →
      storeHost .big (Htonll .big x) ≠ storeHost .big x) := by
  refine ⟨fun e => Ntohll_Htonll e x h, Htonll_little_bytes x h, ?_⟩
  intro hneq heq
  have h1 : Htonll .big x < 2 ^ 64 := Htonll_lt .big x
  have h2 := congrArg (loadHost .big) heq
  rw [loadHost_storeHost _ _ h1, loadHost_storeHost _ _ h] at h2
  have h3 : (x % 2 ^ 32) * 2 ^ 32 + x / 2 ^ 32 % 2 ^ 32 = x := h2
  omega

theorem htonll_roundtrip_little_wire_witness :
    Ntohll .little (Htonll .little 1) = 1 ∧
      storeHost .little (Htonll .little 1) = storeHost .big 1 ∧
      storeHost .big (Htonll .big 1) ≠ storeHost .big 1 := by
  have h := htonll_roundtrip_little_wire 1 (by decide)
  exact ⟨h.1 .little, h.2.1, h.2.2 (by decide)⟩

/-- C8 counterexample: encoding the Record {"stdout": "hello\n",
"stderr": ""} with the two-string `sendResponse` produces a leading
length field of 58, not 52: the sum of all key and value byte lengths is
6+6+6+0 = 18, so `total_length` = 8 + 32 + 18 = 58 (the example's
"8 + 32 + 12 = 52" drops the 6 bytes of the "stdout" value). -/
theorem example_total_length_is_58_not_52 :
    readUInt64At .little
        (sendResponseTwo .little (strBytes "hello\n") (strBytes "")) 0
      = some 58 ∧ (58 : Nat) ≠ 52 := by decide

/-- C8 amended: the Record {"stdout": "hello\n", "stderr": ""} encodes
via the two-string `sendResponse` to a single message with
`num_fields = 2`, size table [(6,6),(6,0)] and
`total_length = 8 + 32 + 18 = 58`, and decoding that exact byte sequence
reproduces the same two fields, on either host endianness. -/
theorem example_message_roundtrip (e : Endian) :
    sendResponseTwo e (strBytes "hello\n") (strBytes "")
      = writeUInt64 e 58 ++ writeUInt64 e 2 ++
        (writeUInt64 e 6 ++ writeUInt64 e 6) ++ (writeUInt64 e 6 ++ writeUInt64 e 0) ++
        (strBytes "stdout" ++ strBytes "hello\n") ++ (strBytes "stderr" ++ strBytes "") ∧
      receiveRequest e (sendResponseTwo e (strBytes "hello\n") (strBytes ""))
        = ⟨.ok [(strBytes "stdout", strBytes "hello\n"), (strBytes "stderr", strBytes "")],
            true⟩ := by
  cases e with
  | little => exact ⟨by decide, by decide⟩
  | big => exact ⟨by decide, by decide⟩

end SimpleSocket
